import Mathlib

/-!
Verification of the hybrid retrieval engine in
`src/pipeline/analyzers/rag_engine.py` (OpenUSPolitics).

Shallow embedding conventions:
  * Python floats are modelled as `ℚ` (the claims are about the exact scoring
    formulas, not rounding).
  * External collaborators are parameters: the ChromaDB vector store's answer
    is the `List VecResult` argument, the `rank_bm25` raw scores are the
    `List ℚ` argument (`BM25Okapi.get_scores` output over the full corpus),
    the tiktoken counter is a `String → Nat` parameter `tc`, and the tiktoken
    encoder/decoder pair used by `get_full_bill_context` are `enc`/`dec`.
  * Python `raise` is modelled with `Except PyErr`.
  * Python `dict` rows are modelled as structures; the dict insertion-order
    preserving merge of `_fuse_results` is an association-list fold keyed by
    chunk `id`.
-/

namespace RagSpec

/-- Chunk metadata: the open Python dict, restricted to the keys the engine
reads (`section`, `section_title`, `start_char`, `bill_number`); a missing key
is `none`.  The source field name `section` is a Lean keyword, hence
`section_name` here. -/
structure Metadata where
  section_name : Option String := none
  section_title : Option String := none
  start_char : Option Int := none
  bill_number : Option String := none
deriving DecidableEq, Repr

instance : Inhabited Metadata := ⟨{}⟩

/-- A corpus chunk as stored in the collection (`_get_all_chunks` row). -/
structure Chunk where
  id : String
  text : String
  metadata : Metadata
deriving DecidableEq, Repr

instance : Inhabited Chunk := ⟨⟨"", "", {}⟩⟩

/-- A row produced by `RAGEngine._vector_search`. -/
structure VecResult where
  id : String
  text : String
  metadata : Metadata
  vector_score : ℚ
  distance : ℚ
deriving DecidableEq, Repr

/-- A row produced by `RAGEngine._bm25_search`. -/
structure BM25Result where
  id : String
  text : String
  metadata : Metadata
  bm25_score : ℚ
deriving DecidableEq, Repr

/-- A row of the merged dict built by `RAGEngine._fuse_results`.  Keys that a
row may lack in Python (`distance`, `bm25_score`, `bm25_score_norm` on a
vector-only row) are `Option`; `_fuse_results` explicitly writes
`vector_score = 0` and `vector_score_norm = 0` on BM25-only rows, so those two
are plain fields. -/
structure FusedResult where
  id : String
  text : String
  metadata : Metadata
  vector_score : ℚ
  vector_score_norm : ℚ
  distance : Option ℚ
  bm25_score : Option ℚ
  bm25_score_norm : Option ℚ
  final_score : ℚ
deriving DecidableEq, Repr

/-- Python exceptions raised (or defined) by the module: `ValueError` from
`setup_bm25_index`, `TypeError` from subscripting a `str` with a string key,
and the module's own `RAGEngineError` class (defined at the top of the file
but never raised on the search paths embedded here). -/
inductive PyErr where
  | valueError (msg : String)
  | typeError (msg : String)
  | ragEngineError (msg : String)
deriving DecidableEq, Repr

/-- A row of the list `find_specific_provisions` is documented to return:
a chunk annotated with its `keyword_matches` count. -/
structure ProvChunk where
  id : String
  text : String
  metadata : Metadata
  keyword_matches : Nat
deriving DecidableEq, Repr

/-- `np.min` over a list (the engine only calls it on non-empty data;
the `[]` case is an arbitrary total-function default). -/
def npMin : List ℚ → ℚ
  | [] => 0
  | x :: xs => xs.foldl min x

/-- `np.max` over a list. -/
def npMax : List ℚ → ℚ
  | [] => 0
  | x :: xs => xs.foldl max x

/-- `normalize_scores` (rag_engine.py lines 102-121): empty stays empty; an
all-ties list becomes `np.ones_like`, otherwise min-max scaling. -/
def normalize_scores (scores : List ℚ) : List ℚ :=
  match scores with
  | [] => []
  | _ :: _ =>
    let min_score := npMin scores
    let max_score := npMax scores
    if max_score = min_score then scores.map (fun _ => 1)
    else scores.map (fun s => (s - min_score) / (max_score - min_score))

/-- Python list slicing `l[:k]`: a non-negative bound takes from the front,
a negative bound drops `-k` elements from the end. -/
def pySlice (l : List α) (k : Int) : List α :=
  if 0 ≤ k then l.take k.toNat
  else l.take (l.length - (-k).toNat)

/-- Stable insert: `x` goes in front of the first element it may precede
(`le x y` true), in particular in front of later elements with a tied key. -/
def insertOrd (le : α → α → Bool) (x : α) : List α → List α
  | [] => [x]
  | y :: ys => if le x y then x :: y :: ys else y :: insertOrd le x ys

/-- Python's `sorted` (Timsort) is a stable sort; a stable sort by a total
key order is unique, so we model it with a structurally recursive stable
insertion sort.  `le a b = true` means `a` may be placed before `b`; ties
must keep their original order, so `le` is true on ties. -/
def pySorted (le : α → α → Bool) : List α → List α
  | [] => []
  | x :: xs => insertOrd le x (pySorted le xs)

/-- `np.argsort(scores)[::-1]`: indices of `scores` sorted by descending
score.  NumPy's default quicksort leaves the order of tied scores
unspecified; we model it deterministically as a stable ascending sort
followed by reversal (no claim below depends on the tie order). -/
def argsortDesc (scores : List ℚ) : List Nat :=
  (pySorted (fun i j => decide (scores.getD i 0 ≤ scores.getD j 0))
    (List.range scores.length)).reverse

/-- `RAGEngine._bm25_search` (lines 296-335), with the raw full-corpus scores
`rawScores = self.bm25.get_scores(query_tokens)` supplied by the external
`rank_bm25` index.  With a `bill_number` filter the out-of-filter entries are
zeroed before ranking; only entries with score `> 0` are returned. -/
def bm25Search (rawScores : List ℚ) (chunks : List Chunk)
    (bill_number : Option String) (top_k : Int) : List BM25Result :=
  let scores := match bill_number with
    | none => rawScores
    | some b =>
      (List.range rawScores.length).map
        (fun i =>
          if (chunks.getD i default).metadata.bill_number = some b
          then rawScores.getD i 0 else 0)
  let top_indices := pySlice (argsortDesc scores) top_k
  top_indices.filterMap
    (fun i =>
      if 0 < scores.getD i 0 then
        some ⟨(chunks.getD i default).id, (chunks.getD i default).text,
              (chunks.getD i default).metadata, scores.getD i 0⟩
      else none)

/-- The dict row `_fuse_results` writes for a vector result
(`{**result, "final_score": alpha * vector_score_norm}`). -/
def vEntry (α : ℚ) (p : VecResult × ℚ) : FusedResult :=
  ⟨p.1.id, p.1.text, p.1.metadata, p.1.vector_score, p.2, some p.1.distance,
   none, none, α * p.2⟩

/-- The dict row `_fuse_results` writes for a BM25 result whose id is new
(`vector_score = 0`, `vector_score_norm = 0`). -/
def bEntry (α : ℚ) (p : BM25Result × ℚ) : FusedResult :=
  ⟨p.1.id, p.1.text, p.1.metadata, 0, 0, none, some p.1.bm25_score, some p.2,
   (1 - α) * p.2⟩

/-- The in-place update `_fuse_results` performs when a BM25 result's id is
already present: add `(1 - alpha) * bm25_score_norm` to the final score and
record the BM25 fields. -/
def bUpd (α : ℚ) (f : FusedResult) (p : BM25Result × ℚ) : FusedResult :=
  { f with bm25_score := some p.1.bm25_score, bm25_score_norm := some p.2,
           final_score := f.final_score + (1 - α) * p.2 }

/-- The first loop of `_fuse_results`: insert each vector result into the
ordered dict `combined` (assigning an existing key keeps its position and
replaces the value, like a Python dict). -/
def fuseFoldV (α : ℚ) : List (VecResult × ℚ) → List FusedResult → List FusedResult
  | [], acc => acc
  | p :: rest, acc =>
    fuseFoldV α rest
      (if acc.any (fun f => decide (f.id = p.1.id))
       then acc.map (fun f => if f.id = p.1.id then vEntry α p else f)
       else acc ++ [vEntry α p])

/-- The second loop of `_fuse_results`: merge each BM25 result into
`combined`, updating in place when the id exists. -/
def fuseFoldB (α : ℚ) : List (BM25Result × ℚ) → List FusedResult → List FusedResult
  | [], acc => acc
  | p :: rest, acc =>
    fuseFoldB α rest
      (if acc.any (fun f => decide (f.id = p.1.id))
       then acc.map (fun f => if f.id = p.1.id then bUpd α f p else f)
       else acc ++ [bEntry α p])

/-- `RAGEngine._fuse_results` (lines 337-394): normalize each score family,
then merge the two result lists into one insertion-ordered dict keyed by
chunk id and return its values. -/
def fuseResults (vr : List VecResult) (br : List BM25Result) (α : ℚ) :
    List FusedResult :=
  let vns := normalize_scores (vr.map (fun r => r.vector_score))
  let bns := normalize_scores (br.map (fun r => r.bm25_score))
  fuseFoldB α (br.zip bns) (fuseFoldV α (vr.zip vns) [])

/-- `RAGEngine._deduplicate_results` (lines 396-402): stable sort by
descending `final_score` (Python's `sorted` with `reverse=True` is stable),
then the Python slice `[:top_k]`. -/
def deduplicateResults (results : List FusedResult) (top_k : Int) :
    List FusedResult :=
  pySlice (pySorted (fun a b => decide (b.final_score ≤ a.final_score)) results)
    top_k

/-- The pure computation at the heart of `RAGEngine.hybrid_search` (lines
203-256, `use_reranker = False` path), as a function of the two sub-search
result lists: fuse, then deduplicate/truncate. -/
def hybridCore (vr : List VecResult) (br : List BM25Result) (top_k : Int)
    (α : ℚ) : List FusedResult :=
  deduplicateResults (fuseResults vr br α) top_k

/-- `setup_bm25_index` (lines 48-72): a hard `ValueError` on an empty corpus;
the actual index construction lives in the external `rank_bm25` library. -/
def setup_bm25_index (chunks : List Chunk) : Except PyErr (List Chunk) :=
  if chunks.isEmpty then
    .error (.valueError "Cannot create BM25 index from empty chunks")
  else .ok chunks

/-- `RAGEngine.hybrid_search` as an error-aware pipeline: the lazy BM25 build
(`_ensure_bm25_index` → `setup_bm25_index`) can raise on an empty corpus; the
BM25 search is run with `top_k*2` candidates and the result fused and
truncated.  The vector store's answer `vectorResults` (also requested with
`top_k*2`) is an input, as is the raw score vector.  Note the source performs
no validation whatsoever of `top_k` or `α`. -/
def hybridPipeline (rawScores : List ℚ) (corpus : List Chunk)
    (vectorResults : List VecResult) (top_k : Int) (α : ℚ)
    (bill_number : Option String) : Except PyErr (List FusedResult) := do
  let _ ← setup_bm25_index corpus
  let br := bm25Search rawScores corpus bill_number (top_k * 2)
  .ok (hybridCore vectorResults br top_k α)

/-- Fractional decimal digits of `num/den` (most significant first), stopping
at the first exact remainder or after `fuel` digits. -/
def fracDigits : Nat → Nat → Nat → List Nat
  | _, _, 0 => []
  | num, den, fuel + 1 =>
    if num = 0 then []
    else (num * 10 / den) :: fracDigits (num * 10 % den) den fuel

/-- Python `str(float)` for values whose decimal expansion terminates (every
`alpha` literal used by the engine, e.g. `str(0.5) = "0.5"`, `str(1.0) =
"1.0"`).  Used to model the f-string interpolation of `alpha`. -/
def pyFloatStr (q : ℚ) : String :=
  let sign := if q < 0 then "-" else ""
  let n := q.num.natAbs
  let d := q.den
  let ds := fracDigits (n % d) d 17
  sign ++ toString (n / d) ++ "." ++
    (if ds.isEmpty then "0" else String.join (ds.map (fun k => toString k)))

/-- Python `f"{x}"` for an `Optional[str]`: `None` prints as `"None"`. -/
def pyOptStr : Option String → String
  | none => "None"
  | some s => s

/-- The cache key of `hybrid_search` (line 229):
`f"{query}:{top_k}:{alpha}:{bill_number}"` — a colon-joined string, not a
tuple. -/
def cacheKey (query : String) (top_k : Int) (alpha : ℚ)
    (bill_number : Option String) : String :=
  query ++ ":" ++ toString top_k ++ ":" ++ pyFloatStr alpha ++ ":" ++
    pyOptStr bill_number

/-- The block `retrieve_context` formats for one ranked result (lines
466-474): `"Section {section}[ - {section_title}]:\n{text}\n"`, with the
dict defaults `"Unknown"` / `""` and Python's truthiness test on the title. -/
def formatChunkBlock (r : FusedResult) : String :=
  let s := r.metadata.section_name.getD "Unknown"
  let t := r.metadata.section_title.getD ""
  let header := "Section " ++ s ++ (if t = "" then "" else " - " ++ t)
  header ++ ":\n" ++ r.text ++ "\n"

/-- The packing loop of `retrieve_context` (lines 461-484), parametric in the
token counter `tc` (`count_tokens`, external tiktoken): walk the ranked
results keeping a running total; the first block that would push the total
past `max_tokens` stops packing (`break`). -/
def packParts (tc : String → Nat) (max_tokens : Nat) :
    Nat → List FusedResult → List String
  | _, [] => []
  | total, r :: rest =>
    let block := formatChunkBlock r
    let ct := tc block
    if max_tokens < total + ct then []
    else block :: packParts tc max_tokens (total + ct) rest

/-- The string `retrieve_context` returns for a given ranked result list:
the packed blocks joined by `"\n".join(context_parts)`. -/
def retrieveContextPack (tc : String → Nat) (results : List FusedResult)
    (max_tokens : Nat) : String :=
  String.intercalate "\n" (packParts tc max_tokens 0 results)

/-- `RAGEngine.retrieve_context` (lines 426-489): hybrid search with
`top_k = 20` for the bill, then token-budgeted packing. -/
def retrieveContext (tc : String → Nat) (rawScores : List ℚ)
    (corpus : List Chunk) (vectorResults : List VecResult)
    (bill_number : String) (max_tokens : Nat) (α : ℚ) :
    Except PyErr String := do
  let results ← hybridPipeline rawScores corpus vectorResults 20 α
    (some bill_number)
  .ok (retrieveContextPack tc results max_tokens)

/-- `RAGEngine.get_full_bill_context` (lines 491-546): fetch the bill's
chunks (the external store's `get(where=...)` is an equality filter on
`bill_number`), stable-sort by `start_char`, emit an optional
`[Section s: t]` header per chunk (only when both parts are non-empty,
Python truthiness), join with blank lines, and truncate by re-encoding with
the external tokenizer pair `enc`/`dec` when over `max_tokens`
(`if max_tokens:` is a truthiness test, hence the `≠ 0` guard). -/
def getFullBillContext (enc : String → List Nat) (dec : List Nat → String)
    (corpus : List Chunk) (bill_number : String) (max_tokens : Nat) : String :=
  let results := corpus.filter
    (fun c => decide (c.metadata.bill_number = some bill_number))
  let chunks_sorted := pySorted
    (fun a b => decide (a.metadata.start_char.getD 0 ≤ b.metadata.start_char.getD 0))
    results
  let context_parts := chunks_sorted.flatMap
    (fun c =>
      let s := c.metadata.section_name.getD ""
      let t := c.metadata.section_title.getD ""
      (if s ≠ "" ∧ t ≠ "" then ["[Section " ++ s ++ ": " ++ t ++ "]"] else [])
        ++ [c.text])
  let full_context := String.intercalate "\n\n" context_parts
  if max_tokens ≠ 0 then
    let tokens := enc full_context
    if max_tokens < tokens.length then dec (tokens.take max_tokens)
    else full_context
  else full_context

/-- The keyword-filter loop of `find_specific_provisions` (lines 578-590).
`all_chunks` is the *string* returned by `get_full_bill_context`, so the
`for chunk in all_chunks` loop yields one-character strings, and the very
first operation on each, `chunk["text"]`, subscripts a `str` with a string
key — a `TypeError`.  Only the empty string completes the loop (vacuously,
collecting nothing). -/
def provisionsFilter (_keywords : List String) (_match_all : Bool) :
    List Char → Except PyErr (List Char)
  | [] => .ok []
  | _ :: _ => .error (.typeError "string indices must be integers")

/-- The match-count scoring loop of `find_specific_provisions` (lines
592-596); it subscripts `chunk["text"]` the same way, but is only ever
reached with the empty list. -/
def provisionsScore (_keywords : List String) :
    List Char → Except PyErr (List ProvChunk)
  | [] => .ok []
  | _ :: _ => .error (.typeError "string indices must be integers")

/-- `RAGEngine.find_specific_provisions` (lines 548-602): it calls
`get_full_bill_context(bill_number)` (token limit defaulting to 8000) — which
returns a `str`, not the chunk list the rest of the body expects — filters,
scores, and sorts by `keyword_matches` descending. -/
def findSpecificProvisions (enc : String → List Nat) (dec : List Nat → String)
    (corpus : List Chunk) (bill_number : String) (keywords : List String)
    (match_all : Bool) : Except PyErr (List ProvChunk) := do
  let all_chunks := getFullBillContext enc dec corpus bill_number 8000
  let matching ← provisionsFilter keywords match_all all_chunks.data
  let scored ← provisionsScore keywords matching
  .ok (pySorted (fun a b => decide (b.keyword_matches ≤ a.keyword_matches)) scored)

/-- Sample metadata and ranked rows used by the concrete counterexamples. -/
def cmd1 : Metadata := { section_name := some "1" }

def cr1 : FusedResult := ⟨"p1", "ab", cmd1, 0, 0, none, none, none, 0⟩

def cr2 : FusedResult := ⟨"p2", "cd", cmd1, 0, 0, none, none, none, 0⟩

/-- The vector-side association of `_fuse_results`: each vector result paired
with its normalized score (index-aligned, as the Python loop writes
`vector_score_norm`). -/
def vnormAssoc (vr : List VecResult) : List (VecResult × ℚ) :=
  vr.zip (normalize_scores (vr.map (fun r => r.vector_score)))

/-- The BM25-side association of `_fuse_results`. -/
def bnormAssoc (br : List BM25Result) : List (BM25Result × ℚ) :=
  br.zip (normalize_scores (br.map (fun r => r.bm25_score)))

/-- The normalized vector score `_fuse_results` associates with chunk id
`cid` (when some vector result carries that id). -/
def vnormOf (vr : List VecResult) (cid : String) : Option ℚ :=
  ((vnormAssoc vr).find? (fun p => decide (p.1.id = cid))).map (fun p => p.2)

/-- The normalized BM25 score `_fuse_results` associates with chunk id
`cid`. -/
def bnormOf (br : List BM25Result) (cid : String) : Option ℚ :=
  ((bnormAssoc br).find? (fun p => decide (p.1.id = cid))).map (fun p => p.2)

/-- The final fused score the merged dict assigns to chunk id `cid`. -/
def fusedFinal (fs : List FusedResult) (cid : String) : Option ℚ :=
  (fs.find? (fun f => decide (f.id = cid))).map (fun f => f.final_score)

/-- The net effect of the whole BM25 merge loop on one pre-existing row:
updated by the (unique) BM25 pair with its id, if any. -/
def updB (α : ℚ) (bl : List (BM25Result × ℚ)) (f : FusedResult) : FusedResult :=
  match bl.find? (fun q => decide (q.1.id = f.id)) with
  | some q => bUpd α f q
  | none => f

/-- Concrete candidates for the C1 witness: ids `c1` (both lists), `c2`
(vector only), `c3` (BM25 only); raw vector scores `[2, 1]` normalize to
`[1, 0]` and raw BM25 scores `[3, 4]` to `[0, 1]`. -/
def wv1 : VecResult := ⟨"c1", "t1", {}, 2, 0⟩

def wv2 : VecResult := ⟨"c2", "t2", {}, 1, 1⟩

def wb1 : BM25Result := ⟨"c1", "t1", {}, 3⟩

def wb3 : BM25Result := ⟨"c3", "t3", {}, 4⟩

/-- Candidates for the C4 counterexample: one vector-only chunk `va`, one
BM25-only chunk `bb`. -/
def cxv : VecResult := ⟨"va", "text a", {}, 2, 0⟩

def cxb : BM25Result := ⟨"bb", "text b", {}, 3⟩

/-- Chunks for the C7 witness and the C3 failing input: two chunks of bill
`H.R. 1` (one mentioning `education`, one `Secretary`) and one chunk of bill
`H.R. 2`. -/
def cu1 : Chunk :=
  ⟨"u1", "Grants for education programs",
   { bill_number := some "H.R. 1", start_char := some 0 }⟩

def cu2 : Chunk :=
  ⟨"u2", "The Secretary shall administer the fund",
   { bill_number := some "H.R. 1", start_char := some 30 }⟩

def cu3 : Chunk :=
  ⟨"u3", "Unrelated other bill text",
   { bill_number := some "H.R. 2", start_char := some 0 }⟩

/-- A vector-side row for bill `H.R. 1` (what the filtered store returns). -/
def wvh : VecResult :=
  ⟨"u1", "Grants for education programs",
   { bill_number := some "H.R. 1", start_char := some 0 }, 2, 0⟩

/-- A concrete stand-in for the external tiktoken encoder (C3 only needs
*some* encoder/decoder pair; the `TypeError` is independent of it). -/
def encC : String → List Nat := fun s => s.data.map Char.toNat

/-- The matching decoder. -/
def decC : List Nat → String := fun l => String.mk (l.map Char.ofNat)

/-! ## Basic facts about `npMin`, `npMax` and `normalize_scores` -/

lemma foldl_min_le_init (l : List ℚ) : ∀ a : ℚ, l.foldl min a ≤ a := by
  induction l with
  | nil => intro a; simp
  | cons x xs ih =>
    intro a
    calc xs.foldl min (min a x) ≤ min a x := ih (min a x)
      _ ≤ a := min_le_left a x

lemma foldl_min_le_mem (l : List ℚ) : ∀ (a x : ℚ), x ∈ l → l.foldl min a ≤ x := by
  induction l with
  | nil => intro a x hx; cases hx
  | cons y ys ih =>
    intro a x hx
    rcases List.mem_cons.mp hx with rfl | hx
    · calc ys.foldl min (min a x) ≤ min a x := foldl_min_le_init ys (min a x)
        _ ≤ x := min_le_right a x
    · exact ih (min a y) x hx

lemma init_le_foldl_max (l : List ℚ) : ∀ a : ℚ, a ≤ l.foldl max a := by
  induction l with
  | nil => intro a; simp
  | cons x xs ih =>
    intro a
    calc a ≤ max a x := le_max_left a x
      _ ≤ xs.foldl max (max a x) := ih (max a x)

lemma mem_le_foldl_max (l : List ℚ) : ∀ (a x : ℚ), x ∈ l → x ≤ l.foldl max a := by
  induction l with
  | nil => intro a x hx; cases hx
  | cons y ys ih =>
    intro a x hx
    rcases List.mem_cons.mp hx with rfl | hx
    · calc x ≤ max a x := le_max_right a x
        _ ≤ ys.foldl max (max a x) := init_le_foldl_max ys (max a x)
    · exact ih (max a y) x hx

lemma npMin_le_mem {l : List ℚ} {x : ℚ} (hx : x ∈ l) : npMin l ≤ x := by
  cases l with
  | nil => cases hx
  | cons y ys =>
    rcases List.mem_cons.mp hx with rfl | hx
    · exact foldl_min_le_init ys x
    · exact foldl_min_le_mem ys y x hx

lemma mem_le_npMax {l : List ℚ} {x : ℚ} (hx : x ∈ l) : x ≤ npMax l := by
  cases l with
  | nil => cases hx
  | cons y ys =>
    rcases List.mem_cons.mp hx with rfl | hx
    · exact init_le_foldl_max ys x
    · exact mem_le_foldl_max ys y x hx

lemma npMin_le_npMax {l : List ℚ} (h : l ≠ []) : npMin l ≤ npMax l := by
  cases l with
  | nil => exact absurd rfl h
  | cons y ys =>
    exact le_trans (npMin_le_mem (List.mem_cons_self y ys))
      (mem_le_npMax (List.mem_cons_self y ys))

lemma foldl_min_const (c : ℚ) : ∀ l : List ℚ, (∀ x ∈ l, x = c) → l.foldl min c = c := by
  intro l
  induction l with
  | nil => intro _; rfl
  | cons x xs ih =>
    intro h
    have hx : x = c := h x (List.mem_cons_self x xs)
    have hxs : ∀ y ∈ xs, y = c := fun y hy => h y (List.mem_cons_of_mem x hy)
    simp [hx, ih hxs]

lemma foldl_max_const (c : ℚ) : ∀ l : List ℚ, (∀ x ∈ l, x = c) → l.foldl max c = c := by
  intro l
  induction l with
  | nil => intro _; rfl
  | cons x xs ih =>
    intro h
    have hx : x = c := h x (List.mem_cons_self x xs)
    have hxs : ∀ y ∈ xs, y = c := fun y hy => h y (List.mem_cons_of_mem x hy)
    simp [hx, ih hxs]

lemma npMin_of_const {l : List ℚ} {c : ℚ} (hne : l ≠ []) (h : ∀ x ∈ l, x = c) :
    npMin l = c := by
  cases l with
  | nil => exact absurd rfl hne
  | cons y ys =>
    have hy : y = c := h y (List.mem_cons_self y ys)
    subst hy
    exact foldl_min_const y ys (fun x hx => h x (List.mem_cons_of_mem y hx))

lemma npMax_of_const {l : List ℚ} {c : ℚ} (hne : l ≠ []) (h : ∀ x ∈ l, x = c) :
    npMax l = c := by
  cases l with
  | nil => exact absurd rfl hne
  | cons y ys =>
    have hy : y = c := h y (List.mem_cons_self y ys)
    subst hy
    exact foldl_max_const y ys (fun x hx => h x (List.mem_cons_of_mem y hx))

lemma normalize_scores_length (l : List ℚ) :
    (normalize_scores l).length = l.length := by
  cases l with
  | nil => rfl
  | cons x xs =>
    simp only [normalize_scores]
    by_cases h : npMax (x :: xs) = npMin (x :: xs) <;> simp [h]

/-- The all-ties branch of `normalize_scores`: identical raw scores come back
as all ones (never all zeros, never a division by zero). -/
lemma normalize_scores_ties {l : List ℚ} {c : ℚ} (hne : l ≠ [])
    (h : ∀ x ∈ l, x = c) :
    normalize_scores l = List.replicate l.length 1 := by
  cases l with
  | nil => exact absurd rfl hne
  | cons x xs =>
    have hmm : npMax (x :: xs) = npMin (x :: xs) := by
      rw [npMax_of_const hne h, npMin_of_const hne h]
    simp only [normalize_scores, hmm, if_pos rfl]
    exact List.map_const' (x :: xs) 1

/-- The min-max branch of `normalize_scores`. -/
lemma normalize_scores_formula {l : List ℚ}
    (h : npMax l ≠ npMin l) :
    normalize_scores l = l.map (fun s => (s - npMin l) / (npMax l - npMin l)) := by
  cases l with
  | nil => exact absurd rfl h
  | cons x xs => simp only [normalize_scores, if_neg h]

lemma npMin_lt_npMax {l : List ℚ} (hne : l ≠ []) (h : npMax l ≠ npMin l) :
    npMin l < npMax l :=
  lt_of_le_of_ne (npMin_le_npMax hne) (fun hc => h hc.symm)

/-- Every normalized score lies in `[0, 1]`. -/
lemma normalize_scores_mem_bounds {l : List ℚ} {v : ℚ}
    (hv : v ∈ normalize_scores l) : 0 ≤ v ∧ v ≤ 1 := by
  cases l with
  | nil => simp [normalize_scores] at hv
  | cons x xs =>
    by_cases h : npMax (x :: xs) = npMin (x :: xs)
    · rw [normalize_scores_ties (List.cons_ne_nil x xs)
        (c := npMin (x :: xs)) ?names] at hv
      · rcases List.eq_of_mem_replicate hv with rfl
        exact ⟨zero_le_one, le_refl 1⟩
      · intro y hy
        exact le_antisymm (h ▸ mem_le_npMax hy) (npMin_le_mem hy)
    · rw [normalize_scores_formula h] at hv
      rcases List.mem_map.mp hv with ⟨s, hs, rfl⟩
      have hlt : npMin (x :: xs) < npMax (x :: xs) :=
        npMin_lt_npMax (List.cons_ne_nil x xs) h
      have hpos : 0 < npMax (x :: xs) - npMin (x :: xs) := by linarith
      constructor
      · apply div_nonneg _ (le_of_lt hpos)
        have := npMin_le_mem hs
        linarith
      · rw [div_le_one hpos]
        have := mem_le_npMax hs
        linarith

/-- Claim C5: score normalization maps each score to
`(s - min) / (max - min)`; an all-ties list (including every singleton)
normalizes to all ones; the empty list stays empty; every normalized value
lies in `[0, 1]`. -/
theorem claim5_normalize_spec (scores : List ℚ) :
    (scores = [] → normalize_scores scores = [])
  ∧ (∀ c : ℚ, scores ≠ [] → (∀ x ∈ scores, x = c) →
      normalize_scores scores = List.replicate scores.length 1)
  ∧ (npMax scores ≠ npMin scores →
      normalize_scores scores =
        scores.map (fun s => (s - npMin scores) / (npMax scores - npMin scores)))
  ∧ (∀ v ∈ normalize_scores scores, 0 ≤ v ∧ v ≤ 1) := by
  refine ⟨fun h => by subst h; rfl,
    fun c hne hc => normalize_scores_ties hne hc,
    fun h => normalize_scores_formula h,
    fun v hv => normalize_scores_mem_bounds hv⟩

/-- Witness for C5: the spec's scenario `[5.0, 5.0, 5.0] ↦ [1.0, 1.0, 1.0]`,
plus a two-valued list following the min-max formula. -/
theorem claim5_witness :
    normalize_scores [5, 5, 5] = [1, 1, 1] ∧ normalize_scores [1, 3] = [0, 1] := by
  constructor
  · have h := (claim5_normalize_spec [5, 5, 5]).2.1 5 (by decide) (by decide)
    simpa using h
  · have h := (claim5_normalize_spec [1, 3]).2.2.1 (by decide)
    rw [h]
    norm_num [npMin, npMax]

lemma foldl_min_map (f : ℚ → ℚ) (hf : ∀ a b : ℚ, f (min a b) = min (f a) (f b)) :
    ∀ (l : List ℚ) (a : ℚ), (l.map f).foldl min (f a) = f (l.foldl min a) := by
  intro l
  induction l with
  | nil => intro a; rfl
  | cons x xs ih =>
    intro a
    simp only [List.map_cons, List.foldl_cons]
    rw [← hf a x, ih (min a x)]

lemma foldl_max_map (f : ℚ → ℚ) (hf : ∀ a b : ℚ, f (max a b) = max (f a) (f b)) :
    ∀ (l : List ℚ) (a : ℚ), (l.map f).foldl max (f a) = f (l.foldl max a) := by
  intro l
  induction l with
  | nil => intro a; rfl
  | cons x xs ih =>
    intro a
    simp only [List.map_cons, List.foldl_cons]
    rw [← hf a x, ih (max a x)]

lemma npMin_map {f : ℚ → ℚ} (hf : ∀ a b : ℚ, f (min a b) = min (f a) (f b)) :
    ∀ {l : List ℚ}, l ≠ [] → npMin (l.map f) = f (npMin l) := by
  intro l hne
  cases l with
  | nil => exact absurd rfl hne
  | cons x xs => exact foldl_min_map f hf xs x

lemma npMax_map {f : ℚ → ℚ} (hf : ∀ a b : ℚ, f (max a b) = max (f a) (f b)) :
    ∀ {l : List ℚ}, l ≠ [] → npMax (l.map f) = f (npMax l) := by
  intro l hne
  cases l with
  | nil => exact absurd rfl hne
  | cons x xs => exact foldl_max_map f hf xs x

/-- Normalization is idempotent on every list. -/
lemma normalize_normalize (l : List ℚ) :
    normalize_scores (normalize_scores l) = normalize_scores l := by
  cases l with
  | nil => rfl
  | cons x xs =>
    have hne : (x :: xs : List ℚ) ≠ [] := List.cons_ne_nil x xs
    by_cases h : npMax (x :: xs) = npMin (x :: xs)
    · have hconst : ∀ y ∈ (x :: xs : List ℚ), y = npMin (x :: xs) := fun y hy =>
        le_antisymm (h ▸ mem_le_npMax hy) (npMin_le_mem hy)
      have h1 : normalize_scores (x :: xs) = List.replicate (x :: xs).length 1 :=
        normalize_scores_ties hne hconst
      rw [h1]
      have h2 : (List.replicate (x :: xs).length (1 : ℚ)) ≠ [] := by simp
      rw [normalize_scores_ties h2 (c := 1)
        (fun y hy => List.eq_of_mem_replicate hy)]
      simp
    · have hlt : npMin (x :: xs) < npMax (x :: xs) := npMin_lt_npMax hne h
      have hpos : 0 < npMax (x :: xs) - npMin (x :: xs) := by linarith
      set mn := npMin (x :: xs) with hmn
      set mx := npMax (x :: xs) with hmx
      have hmono : Monotone (fun s : ℚ => (s - mn) / (mx - mn)) := by
        intro a b hab
        exact (div_le_div_iff_of_pos_right hpos).mpr (by linarith)
      have hfmin : ∀ a b : ℚ,
          (fun s : ℚ => (s - mn) / (mx - mn)) (min a b) =
            min ((fun s : ℚ => (s - mn) / (mx - mn)) a)
              ((fun s : ℚ => (s - mn) / (mx - mn)) b) := fun a b => hmono.map_min
      have hfmax : ∀ a b : ℚ,
          (fun s : ℚ => (s - mn) / (mx - mn)) (max a b) =
            max ((fun s : ℚ => (s - mn) / (mx - mn)) a)
              ((fun s : ℚ => (s - mn) / (mx - mn)) b) := fun a b => hmono.map_max
      have h1 : normalize_scores (x :: xs) =
          (x :: xs).map (fun s => (s - mn) / (mx - mn)) :=
        normalize_scores_formula h
      rw [h1]
      have hmapne : ((x :: xs).map (fun s => (s - mn) / (mx - mn))) ≠ [] := by simp
      have hminv : npMin ((x :: xs).map (fun s => (s - mn) / (mx - mn))) = 0 := by
        rw [npMin_map hfmin hne]
        show (mn - mn) / (mx - mn) = 0
        rw [sub_self, zero_div]
      have hmaxv : npMax ((x :: xs).map (fun s => (s - mn) / (mx - mn))) = 1 := by
        rw [npMax_map hfmax hne]
        show (mx - mn) / (mx - mn) = 1
        exact div_self (ne_of_gt hpos)
      have hne2 : npMax ((x :: xs).map (fun s => (s - mn) / (mx - mn))) ≠
          npMin ((x :: xs).map (fun s => (s - mn) / (mx - mn))) := by
        rw [hminv, hmaxv]; norm_num
      rw [normalize_scores_formula hne2, hminv, hmaxv]
      have hid : (fun s : ℚ => (s - 0) / (1 - 0)) = fun s : ℚ => s := by
        funext s; simp
      rw [hid, List.map_id']

/-- Claim C6: applying normalization twice equals applying it once — every
normalized list is a fixed point, and an all-ties list still yields all ones
under repeated normalization. -/
theorem claim6_normalize_idempotence (scores : List ℚ) :
    normalize_scores (normalize_scores scores) = normalize_scores scores
  ∧ (∀ c : ℚ, scores ≠ [] → (∀ x ∈ scores, x = c) →
      normalize_scores (normalize_scores scores) =
        List.replicate scores.length 1) := by
  refine ⟨normalize_normalize scores, fun c hne hc => ?ties⟩
  rw [normalize_normalize scores]
  exact normalize_scores_ties hne hc

/-- Witness for C6: repeated normalization at the spec's tie scenario and at
a generic two-valued list. -/
theorem claim6_witness :
    normalize_scores (normalize_scores [5, 5, 5]) = [1, 1, 1]
  ∧ normalize_scores (normalize_scores [1, 3]) = normalize_scores [1, 3] := by
  constructor
  · have h := (claim6_normalize_idempotence [5, 5, 5]).2 5 (by decide) (by decide)
    simpa using h
  · exact (claim6_normalize_idempotence [1, 3]).1

/-! ## Token-budgeted context packing (`retrieve_context`) -/

lemma packParts_cons (tc : String → Nat) (T total : Nat) (r : FusedResult)
    (rest : List FusedResult) :
    packParts tc T total (r :: rest) =
      if T < total + tc (formatChunkBlock r) then []
      else formatChunkBlock r :: packParts tc T (total + tc (formatChunkBlock r)) rest := by
  rfl

/-- The running total the packer maintains never exceeds the budget: the sum
of the packed blocks' token costs stays within `T`. -/
lemma packParts_sum_le (tc : String → Nat) (T : Nat) :
    ∀ (results : List FusedResult) (total : Nat), total ≤ T →
      total + ((packParts tc T total results).map tc).sum ≤ T := by
  intro results
  induction results with
  | nil => intro total h; simpa using h
  | cons r rest ih =>
    intro total h
    rw [packParts_cons]
    by_cases hc : T < total + tc (formatChunkBlock r)
    · simpa [hc] using h
    · rw [if_neg hc]
      have h2 : total + tc (formatChunkBlock r) ≤ T := Nat.le_of_not_lt hc
      have := ih (total + tc (formatChunkBlock r)) h2
      simpa [Nat.add_assoc] using this

/-- The packed blocks are an initial segment (a `take`) of the ranked block
list, and when packing stopped early the very next block in rank order is the
one that would have overflowed the budget. -/
lemma packParts_take (tc : String → Nat) (T : Nat) :
    ∀ (results : List FusedResult) (total : Nat),
      ∃ n, packParts tc T total results = (results.map formatChunkBlock).take n
        ∧ (n < results.length →
            T < total + ((packParts tc T total results).map tc).sum +
              tc ((results.map formatChunkBlock).getD n "")) := by
  intro results
  induction results with
  | nil =>
    intro total
    exact ⟨0, by simp [packParts], by simp⟩
  | cons r rest ih =>
    intro total
    rw [packParts_cons]
    by_cases hc : T < total + tc (formatChunkBlock r)
    · rw [if_pos hc]
      refine ⟨0, by simp, ?_⟩
      intro _
      simpa using hc
    · rw [if_neg hc]
      rcases ih (total + tc (formatChunkBlock r)) with ⟨n, hshape, hstop⟩
      refine ⟨n + 1, ?_, ?_⟩
      · simp only [List.map_cons, List.take_succ_cons, hshape]
      · intro hlt
        have hlt2 : n < rest.length := by simpa using hlt
        have := hstop hlt2
        simp only [List.map_cons, List.sum_cons, List.getD_cons_succ]
        omega

/-- Claim C2 (amended): for every token counter, every ranked candidate list
and every budget `T`, the packer keeps the *sum of the packed blocks' token
costs* within `T`, and packing is strict-prefix greedy — the packed blocks
are an initial segment of the ranked blocks and the first unpacked block is
exactly the one whose cost would push the running total past `T` (no later,
smaller candidate is packed in its place).  The string `retrieve_context`
returns additionally contains a `"\n"` separator between consecutive blocks
that the running total does not count, so the *string's* token count may
exceed `T` (see `claim2_counterexample`). -/
theorem claim2_token_packing (tc : String → Nat) (results : List FusedResult)
    (T : Nat) :
    ((packParts tc T 0 results).map tc).sum ≤ T
  ∧ ∃ n, packParts tc T 0 results = (results.map formatChunkBlock).take n
      ∧ (n < results.length →
          T < ((packParts tc T 0 results).map tc).sum +
            tc ((results.map formatChunkBlock).getD n "")) := by
  constructor
  · simpa using packParts_sum_le tc T results 0 (Nat.zero_le T)
  · rcases packParts_take tc T results 0 with ⟨n, hshape, hstop⟩
    exact ⟨n, hshape, fun hlt => by simpa using hstop hlt⟩

/-- Counterexample to C2 as stated:  under the token counter
`tc = String.length`, both candidate blocks cost 14 tokens, the budget is
`T = 28 ≥ 14` (at least the smallest block), the packer packs both
(running total `28 ≤ 28`), yet the returned string —
`"\n".join` of the two blocks — has `29 > 28` tokens, because the join
separator between blocks is never counted. -/
theorem claim2_counterexample :
    String.length (formatChunkBlock cr1) = 14
  ∧ String.length (formatChunkBlock cr2) = 14
  ∧ String.length (retrieveContextPack String.length [cr1, cr2] 28) = 29 := by
  refine ⟨by decide, by decide, by decide⟩

/-- Witness for C2 (amended), at the counterexample's own input: the packed
block costs sum to at most the budget even though the joined string is over. -/
theorem claim2_witness :
    ((packParts String.length 28 0 [cr1, cr2]).map String.length).sum ≤ 28 :=
  (claim2_token_packing String.length [cr1, cr2] 28).1

/-- Claim C10: when the highest-ranked candidate's formatted block alone
already exceeds `max_tokens`, `retrieve_context` packs nothing and returns
the empty string — the packing loop `break`s on its first iteration and no
error is raised (the embedding is a total function into `String`). -/
theorem claim10_oversized_first_chunk (tc : String → Nat) (r : FusedResult)
    (rest : List FusedResult) (T : Nat) (h : T < tc (formatChunkBlock r)) :
    retrieveContextPack tc (r :: rest) T = "" := by
  unfold retrieveContextPack
  rw [packParts_cons]
  have h0 : T < 0 + tc (formatChunkBlock r) := by simpa using h
  rw [if_pos h0]
  rfl

/-- Witness for C10: a 14-token block against a budget of 5. -/
theorem claim10_witness : retrieveContextPack String.length [cr1] 5 = "" :=
  claim10_oversized_first_chunk String.length cr1 [] 5 (by decide)

/-! ## Characterization of `_fuse_results` -/

lemma vEntry_id (α : ℚ) (p : VecResult × ℚ) : (vEntry α p).id = p.1.id := rfl

lemma bEntry_id (α : ℚ) (p : BM25Result × ℚ) : (bEntry α p).id = p.1.id := rfl

lemma bUpd_id (α : ℚ) (f : FusedResult) (p : BM25Result × ℚ) :
    (bUpd α f p).id = f.id := rfl

lemma updB_id (α : ℚ) (bl : List (BM25Result × ℚ)) (f : FusedResult) :
    (updB α bl f).id = f.id := by
  unfold updB
  cases bl.find? (fun q => decide (q.1.id = f.id)) <;> rfl

/-- Closed form of the vector insertion loop: with pairwise-fresh ids the
loop just appends one `vEntry` row per vector result. -/
lemma fuseFoldV_closed (α : ℚ) :
    ∀ (vl : List (VecResult × ℚ)) (acc : List FusedResult),
      (∀ f ∈ acc, ∀ p ∈ vl, f.id ≠ p.1.id) →
      (vl.map (fun p => p.1.id)).Nodup →
      fuseFoldV α vl acc = acc ++ vl.map (vEntry α) := by
  intro vl
  induction vl with
  | nil => intro acc _ _; simp [fuseFoldV]
  | cons p rest ih =>
    intro acc hacc hnd
    simp only [List.map_cons, List.nodup_cons] at hnd
    have hany : acc.any (fun f => decide (f.id = p.1.id)) = false := by
      rw [List.any_eq_false]
      intro f hf
      simp only [decide_eq_true_eq]
      exact hacc f hf p (List.mem_cons_self p rest)
    show fuseFoldV α rest
        (if acc.any (fun f => decide (f.id = p.1.id)) then _ else _) = _
    rw [hany]
    simp only [Bool.false_eq_true, if_false]
    rw [ih (acc ++ [vEntry α p]) ?fresh hnd.2]
    · simp [List.append_assoc]
    case fresh =>
      intro f hf q hq
      rcases List.mem_append.mp hf with hf | hf
      · exact hacc f hf q (List.mem_cons_of_mem p hq)
      · have hfe : f = vEntry α p := by simpa using hf
        subst hfe
        rw [vEntry_id]
        intro hcontra
        exact hnd.1 (hcontra ▸ List.mem_map_of_mem (fun q => q.1.id) hq)

/-- Closed form of the BM25 merge loop: with unique ids on both sides, each
pre-existing row is updated by its matching BM25 pair (if any), and the BM25
pairs whose id is fresh are appended, in order, as `bEntry` rows. -/
lemma fuseFoldB_closed (α : ℚ) :
    ∀ (bl : List (BM25Result × ℚ)) (acc : List FusedResult),
      (acc.map (fun f => f.id)).Nodup →
      (bl.map (fun q => q.1.id)).Nodup →
      fuseFoldB α bl acc =
        acc.map (updB α bl) ++
          (bl.filter
            (fun q => ! acc.any (fun f => decide (f.id = q.1.id)))).map
            (bEntry α) := by
  intro bl
  induction bl with
  | nil =>
    intro acc _ _
    have hid : acc.map (updB α []) = acc := by
      have h1 : ∀ f : FusedResult, updB α [] f = f := fun f => rfl
      rw [List.map_congr_left (fun f _ => h1 f), List.map_id']
    simp [fuseFoldB, hid]
  | cons q rest ih =>
    intro acc hacc hnd
    simp only [List.map_cons, List.nodup_cons] at hnd
    by_cases hq : acc.any (fun f => decide (f.id = q.1.id)) = true
    · -- the id is already present: update that row in place
      show fuseFoldB α rest
          (if acc.any (fun f => decide (f.id = q.1.id)) then _ else _) = _
      rw [hq]
      simp only [if_true]
      have hgid : ∀ f : FusedResult,
          (if f.id = q.1.id then bUpd α f q else f).id = f.id := by
        intro f; split <;> rfl
      have hids : ((acc.map
            (fun f => if f.id = q.1.id then bUpd α f q else f)).map
              (fun f => f.id)) = acc.map (fun f => f.id) := by
        rw [List.map_map]
        exact List.map_congr_left (fun f _ => hgid f)
      rw [ih _ (by rw [hids]; exact hacc) hnd.2]
      have hmap : (acc.map
            (fun f => if f.id = q.1.id then bUpd α f q else f)).map
              (updB α rest) = acc.map (updB α (q :: rest)) := by
        rw [List.map_map]
        apply List.map_congr_left
        intro f _
        show updB α rest (if f.id = q.1.id then bUpd α f q else f) =
          updB α (q :: rest) f
        by_cases hf1 : f.id = q.1.id
        · rw [if_pos hf1]
          unfold updB
          have hnone : rest.find?
              (fun p => decide (p.1.id = (bUpd α f q).id)) = none := by
            rw [List.find?_eq_none]
            intro x hx
            simp only [decide_eq_true_eq, bUpd_id]
            intro hcontra
            exact hnd.1 ((hf1 ▸ hcontra) ▸
              List.mem_map_of_mem (fun p => p.1.id) hx)
          rw [hnone]
          have hhead : (q :: rest).find? (fun p => decide (p.1.id = f.id)) =
              some q := by
            rw [List.find?_cons_of_pos]
            simp [hf1]
          rw [hhead]
        · rw [if_neg hf1]
          unfold updB
          have hhead : (q :: rest).find? (fun p => decide (p.1.id = f.id)) =
              rest.find? (fun p => decide (p.1.id = f.id)) := by
            rw [List.find?_cons_of_neg]
            simp only [decide_eq_true_eq]
            exact fun hcontra => hf1 hcontra.symm
          rw [hhead]
      rw [hmap]
      have hfilt : rest.filter
          (fun x => ! (acc.map
            (fun f => if f.id = q.1.id then bUpd α f q else f)).any
              (fun f => decide (f.id = x.1.id))) =
          rest.filter (fun x => ! acc.any (fun f => decide (f.id = x.1.id))) := by
        apply List.filter_congr
        intro x _
        rw [List.any_map]
        congr 1
        apply congrArg
        funext f
        rw [Function.comp_apply, hgid f]
      rw [hfilt]
      have hfq : (q :: rest).filter
          (fun x => ! acc.any (fun f => decide (f.id = x.1.id))) =
          rest.filter (fun x => ! acc.any (fun f => decide (f.id = x.1.id))) := by
        rw [List.filter_cons]
        simp [hq]
      rw [hfq]
    · -- fresh id: append a `bEntry` row
      have hqf : acc.any (fun f => decide (f.id = q.1.id)) = false :=
        Bool.eq_false_iff.mpr hq
      have hfresh : ∀ f ∈ acc, f.id ≠ q.1.id := by
        intro f hf
        have := List.any_eq_false.mp hqf f hf
        simpa using this
      show fuseFoldB α rest
          (if acc.any (fun f => decide (f.id = q.1.id)) then _ else _) = _
      rw [hqf]
      simp only [Bool.false_eq_true, if_false]
      have hids2 : ((acc ++ [bEntry α q]).map (fun f => f.id)).Nodup := by
        rw [List.map_append]
        rw [List.nodup_append]
        refine ⟨hacc, by simp, ?disj⟩
        intro a ha
        rcases List.mem_map.mp ha with ⟨f, hf, rfl⟩
        simp only [List.map_cons, List.map_nil, List.mem_singleton, bEntry_id]
        exact hfresh f hf
      rw [ih _ hids2 hnd.2]
      rw [List.map_append]
      have hsingle : ([bEntry α q].map (updB α rest)) = [bEntry α q] := by
        simp only [List.map_cons, List.map_nil]
        unfold updB
        have hnone : rest.find?
            (fun p => decide (p.1.id = (bEntry α q).id)) = none := by
          rw [List.find?_eq_none]
          intro x hx
          simp only [decide_eq_true_eq, bEntry_id]
          intro hcontra
          exact hnd.1 (hcontra ▸ List.mem_map_of_mem (fun p => p.1.id) hx)
        rw [hnone]
      rw [hsingle]
      have hmap2 : acc.map (updB α rest) = acc.map (updB α (q :: rest)) := by
        apply List.map_congr_left
        intro f hf
        unfold updB
        have hhead : (q :: rest).find? (fun p => decide (p.1.id = f.id)) =
            rest.find? (fun p => decide (p.1.id = f.id)) := by
          rw [List.find?_cons_of_neg]
          simp only [decide_eq_true_eq]
          exact fun hcontra => hfresh f hf hcontra.symm
        rw [hhead]
      rw [hmap2]
      have hfilt2 : rest.filter
          (fun x => ! (acc ++ [bEntry α q]).any
            (fun f => decide (f.id = x.1.id))) =
          rest.filter (fun x => ! acc.any (fun f => decide (f.id = x.1.id))) := by
        apply List.filter_congr
        intro x hx
        rw [List.any_append]
        have hone : ([bEntry α q].any (fun f => decide (f.id = x.1.id))) = false := by
          simp only [List.any_cons, List.any_nil, Bool.or_false, bEntry_id,
            decide_eq_true_eq, decide_eq_false_iff_not]
          intro hcontra
          exact hnd.1 (hcontra ▸ List.mem_map_of_mem (fun p => p.1.id) hx)
        rw [hone, Bool.or_false]
      rw [hfilt2]
      have hfq2 : (q :: rest).filter
          (fun x => ! acc.any (fun f => decide (f.id = x.1.id))) =
          q :: rest.filter (fun x => ! acc.any (fun f => decide (f.id = x.1.id))) := by
        rw [List.filter_cons]
        simp [hqf]
      rw [hfq2]
      simp [List.append_assoc]

lemma find?_filter_unique {γ : Type} (p q : γ → Bool) (a : γ) :
    ∀ l : List γ, l.find? p = some a → q a = true →
      (∀ x ∈ l, p x = true → x = a) → (l.filter q).find? p = some a := by
  intro l
  induction l with
  | nil => intro h; simp at h
  | cons x xs ih =>
    intro hfind hqa huniq
    by_cases hx : p x = true
    · have hax : x = a := huniq x (List.mem_cons_self x xs) hx
      subst hax
      rw [List.filter_cons, if_pos hqa]
      exact List.find?_cons_of_pos _ hx
    · rw [List.find?_cons_of_neg _ hx] at hfind
      have hxs := ih hfind hqa
        (fun y hy hpy => huniq y (List.mem_cons_of_mem x hy) hpy)
      rw [List.filter_cons]
      by_cases hqx : q x = true
      · rw [if_pos hqx, List.find?_cons_of_neg _ hx]
        exact hxs
      · rw [if_neg hqx]
        exact hxs

lemma vnormAssoc_ids (vr : List VecResult) :
    (vnormAssoc vr).map (fun p => p.1.id) = vr.map (fun r => r.id) := by
  unfold vnormAssoc
  have hlen : vr.length ≤
      (normalize_scores (vr.map (fun r => r.vector_score))).length := by
    rw [normalize_scores_length, List.length_map]
  have hsplit : (fun p : VecResult × ℚ => p.1.id) =
      (fun r : VecResult => r.id) ∘ Prod.fst := rfl
  rw [hsplit, ← List.map_map, List.map_fst_zip _ _ hlen]

lemma bnormAssoc_ids (br : List BM25Result) :
    (bnormAssoc br).map (fun p => p.1.id) = br.map (fun r => r.id) := by
  unfold bnormAssoc
  have hlen : br.length ≤
      (normalize_scores (br.map (fun r => r.bm25_score))).length := by
    rw [normalize_scores_length, List.length_map]
  have hsplit : (fun p : BM25Result × ℚ => p.1.id) =
      (fun r : BM25Result => r.id) ∘ Prod.fst := rfl
  rw [hsplit, ← List.map_map, List.map_fst_zip _ _ hlen]

/-- The central characterization of `_fuse_results`: with unique chunk ids
in each candidate list, the final score the merged dict assigns to a chunk
id is `alpha * norm_vector + (1 - alpha) * norm_bm25` when both lists carry
that id, `alpha * norm_vector` for a vector-only id, `(1 - alpha) *
norm_bm25` for a BM25-only id, and nothing otherwise. -/
lemma fusedFinal_eq (vr : List VecResult) (br : List BM25Result) (α : ℚ)
    (cid : String)
    (hv : (vr.map (fun r => r.id)).Nodup)
    (hb : (br.map (fun r => r.id)).Nodup) :
    fusedFinal (fuseResults vr br α) cid =
      match vnormOf vr cid, bnormOf br cid with
      | some vn, some bn => some (α * vn + (1 - α) * bn)
      | some vn, none => some (α * vn)
      | none, some bn => some ((1 - α) * bn)
      | none, none => none := by
  have hvz : ((vnormAssoc vr).map (fun p => p.1.id)).Nodup := by
    rw [vnormAssoc_ids]; exact hv
  have hbz : ((bnormAssoc br).map (fun p => p.1.id)).Nodup := by
    rw [bnormAssoc_ids]; exact hb
  have h1 : fuseResults vr br α =
      fuseFoldB α (bnormAssoc br) (fuseFoldV α (vnormAssoc vr) []) := rfl
  have h2 : fuseFoldV α (vnormAssoc vr) [] = (vnormAssoc vr).map (vEntry α) := by
    rw [fuseFoldV_closed α (vnormAssoc vr) [] (fun f hf => absurd hf
      (List.not_mem_nil f)) hvz]
    rfl
  have hinit_ids : (((vnormAssoc vr).map (vEntry α)).map
      (fun f => f.id)).Nodup := by
    rw [List.map_map]
    have he : ((fun f : FusedResult => f.id) ∘ vEntry α) =
        fun p : VecResult × ℚ => p.1.id := rfl
    rw [he, vnormAssoc_ids]
    exact hv
  have h3 := fuseFoldB_closed α (bnormAssoc br)
    ((vnormAssoc vr).map (vEntry α)) hinit_ids hbz
  rw [h1, h2, h3]
  unfold fusedFinal
  rw [List.find?_append, List.map_map, List.find?_map, List.find?_map]
  have hpe1 : ((fun f : FusedResult => decide (f.id = cid)) ∘
      (updB α (bnormAssoc br) ∘ vEntry α)) =
      fun q : VecResult × ℚ => decide (q.1.id = cid) := by
    funext q
    simp only [Function.comp_apply, updB_id, vEntry_id]
  have hpe2 : ((fun f : FusedResult => decide (f.id = cid)) ∘ bEntry α) =
      fun q : BM25Result × ℚ => decide (q.1.id = cid) := by
    funext q
    simp only [Function.comp_apply, bEntry_id]
  rw [hpe1, hpe2]
  rcases hfv : (vnormAssoc vr).find? (fun q => decide (q.1.id = cid))
    with _ | pv
  · -- the id is not on the vector side
    have hvnone : vnormOf vr cid = none := by
      unfold vnormOf; rw [hfv]; rfl
    rw [hvnone, hfv]
    simp only [Option.map_none', Option.none_or]
    rcases hfb : (bnormAssoc br).find? (fun q => decide (q.1.id = cid))
      with _ | qb
    · have hbnone : bnormOf br cid = none := by
        unfold bnormOf; rw [hfb]; rfl
      rw [hbnone]
      have hnone : ((bnormAssoc br).filter
          (fun q => ! ((vnormAssoc vr).map (vEntry α)).any
            (fun f => decide (f.id = q.1.id)))).find?
            (fun q => decide (q.1.id = cid)) = none := by
        rw [List.find?_eq_none]
        intro x hx
        exact List.find?_eq_none.mp hfb x (List.mem_of_mem_filter hx)
      rw [hnone]
      rfl
    · have hbsome : bnormOf br cid = some qb.2 := by
        unfold bnormOf; rw [hfb]; rfl
      rw [hbsome]
      have hqbid : qb.1.id = cid := by
        have := List.find?_some hfb
        simpa using this
      have hkeep : (! ((vnormAssoc vr).map (vEntry α)).any
          (fun f => decide (f.id = qb.1.id))) = true := by
        have hnonev : (((vnormAssoc vr).map (vEntry α)).any
            (fun f => decide (f.id = qb.1.id))) = false := by
          rw [List.any_eq_false]
          intro f hf
          rcases List.mem_map.mp hf with ⟨p, hp, rfl⟩
          simp only [vEntry_id, decide_eq_true_eq]
          intro hcontra
          have := List.find?_eq_none.mp hfv p hp
          simp only [decide_eq_true_eq] at this
          exact this (hqbid ▸ hcontra)
        rw [hnonev]
        rfl
      have huniq : ∀ x ∈ bnormAssoc br,
          (decide (x.1.id = cid) = true) → x = qb := by
        intro x hx hpx
        simp only [decide_eq_true_eq] at hpx
        have hqbmem : qb ∈ bnormAssoc br := List.mem_of_find?_eq_some hfb
        exact List.inj_on_of_nodup_map hbz hx hqbmem
          (show x.1.id = qb.1.id by rw [hpx, hqbid])
      have hfound := find?_filter_unique
        (fun q : BM25Result × ℚ => decide (q.1.id = cid))
        (fun q : BM25Result × ℚ => ! ((vnormAssoc vr).map (vEntry α)).any
          (fun f => decide (f.id = q.1.id)))
        qb (bnormAssoc br) hfb hkeep huniq
      rw [hfound]
      simp [bEntry]
  · -- the id is on the vector side
    have hvsome : vnormOf vr cid = some pv.2 := by
      unfold vnormOf; rw [hfv]; rfl
    rw [hvsome, hfv]
    have hpvid : pv.1.id = cid := by
      have := List.find?_some hfv
      simpa using this
    simp only [Option.map_some', Option.or_some, Function.comp_apply]
    show some ((updB α (bnormAssoc br) (vEntry α pv)).final_score) = _
    unfold updB
    simp only [vEntry_id, hpvid]
    rcases hfb : (bnormAssoc br).find? (fun q => decide (q.1.id = cid))
      with _ | qb
    · have hbnone : bnormOf br cid = none := by
        unfold bnormOf; rw [hfb]; rfl
      rw [hbnone, hfb]
      rfl
    · have hbsome : bnormOf br cid = some qb.2 := by
        unfold bnormOf; rw [hfb]; rfl
      rw [hbsome, hfb]
      simp [bUpd, vEntry]

/-- Claim C1: for every pair of candidate lists (with the id-uniqueness the
data model guarantees by construction) and every alpha, the fused score of a
chunk present in both lists is `alpha * norm_vector + (1-alpha) * norm_bm25`;
a vector-only chunk gets `alpha * norm_vector`; a BM25-only chunk gets
`(1-alpha) * norm_bm25`; and no chunk id appearing in either list is dropped
by the id-keyed merge. -/
theorem claim1_fusion_formula (vr : List VecResult) (br : List BM25Result)
    (α : ℚ)
    (hv : (vr.map (fun r => r.id)).Nodup)
    (hb : (br.map (fun r => r.id)).Nodup) :
    (∀ cid vn bn, vnormOf vr cid = some vn → bnormOf br cid = some bn →
        fusedFinal (fuseResults vr br α) cid = some (α * vn + (1 - α) * bn))
  ∧ (∀ cid vn, vnormOf vr cid = some vn → bnormOf br cid = none →
        fusedFinal (fuseResults vr br α) cid = some (α * vn))
  ∧ (∀ cid bn, vnormOf vr cid = none → bnormOf br cid = some bn →
        fusedFinal (fuseResults vr br α) cid = some ((1 - α) * bn))
  ∧ (∀ cid, (vnormOf vr cid).isSome = true ∨ (bnormOf br cid).isSome = true →
        (fusedFinal (fuseResults vr br α) cid).isSome = true) := by
  refine ⟨?both, ?vonly, ?bonly, ?nodrop⟩
  case both =>
    intro cid vn bn hvn hbn
    rw [fusedFinal_eq vr br α cid hv hb, hvn, hbn]
  case vonly =>
    intro cid vn hvn hbn
    rw [fusedFinal_eq vr br α cid hv hb, hvn, hbn]
  case bonly =>
    intro cid bn hvn hbn
    rw [fusedFinal_eq vr br α cid hv hb, hvn, hbn]
  case nodrop =>
    intro cid hsome
    rw [fusedFinal_eq vr br α cid hv hb]
    rcases hvn : vnormOf vr cid with _ | vn <;>
      rcases hbn : bnormOf br cid with _ | bn
    · rw [hvn, hbn] at hsome
      simp at hsome
    all_goals rfl

lemma wv_scores_norm : normalize_scores [(2 : ℚ), 1] = [1, 0] := by
  have h1 : npMin [(2 : ℚ), 1] = 1 := by norm_num [npMin, min_def]
  have h2 : npMax [(2 : ℚ), 1] = 2 := by norm_num [npMax, max_def]
  norm_num [normalize_scores, h1, h2]

lemma wb_scores_norm : normalize_scores [(3 : ℚ), 4] = [0, 1] := by
  have h1 : npMin [(3 : ℚ), 4] = 3 := by norm_num [npMin, min_def]
  have h2 : npMax [(3 : ℚ), 4] = 4 := by norm_num [npMax, max_def]
  norm_num [normalize_scores, h1, h2]

lemma wv_map_scores : List.map (fun r : VecResult => r.vector_score) [wv1, wv2]
    = [2, 1] := by
  simp [wv1, wv2]

lemma wb_map_scores : List.map (fun r : BM25Result => r.bm25_score) [wb1, wb3]
    = [3, 4] := by
  simp [wb1, wb3]

lemma wv_vnorm_c1 : vnormOf [wv1, wv2] "c1" = some 1 := by
  unfold vnormOf vnormAssoc
  rw [wv_map_scores, wv_scores_norm]
  simp [wv1, wv2, List.find?]

lemma wv_vnorm_c2 : vnormOf [wv1, wv2] "c2" = some 0 := by
  unfold vnormOf vnormAssoc
  rw [wv_map_scores, wv_scores_norm]
  simp [wv1, wv2, List.find?]

lemma wv_vnorm_c3 : vnormOf [wv1, wv2] "c3" = none := by
  unfold vnormOf vnormAssoc
  rw [wv_map_scores, wv_scores_norm]
  simp [wv1, wv2, List.find?]

lemma wb_bnorm_c1 : bnormOf [wb1, wb3] "c1" = some 0 := by
  unfold bnormOf bnormAssoc
  rw [wb_map_scores, wb_scores_norm]
  simp [wb1, wb3, List.find?]

lemma wb_bnorm_c2 : bnormOf [wb1, wb3] "c2" = none := by
  unfold bnormOf bnormAssoc
  rw [wb_map_scores, wb_scores_norm]
  simp [wb1, wb3, List.find?]

lemma wb_bnorm_c3 : bnormOf [wb1, wb3] "c3" = some 1 := by
  unfold bnormOf bnormAssoc
  rw [wb_map_scores, wb_scores_norm]
  simp [wb1, wb3, List.find?]

/-- Witness for C1 at `alpha = 1/2`: the three fusion cases on the concrete
candidate lists. -/
theorem claim1_witness :
    fusedFinal (fuseResults [wv1, wv2] [wb1, wb3] (1/2)) "c1" = some (1/2)
  ∧ fusedFinal (fuseResults [wv1, wv2] [wb1, wb3] (1/2)) "c2" = some 0
  ∧ fusedFinal (fuseResults [wv1, wv2] [wb1, wb3] (1/2)) "c3" = some (1/2) := by
  have h := claim1_fusion_formula [wv1, wv2] [wb1, wb3] (1/2)
    (by simp [wv1, wv2]) (by simp [wb1, wb3])
  refine ⟨?hc1, ?hc2, ?hc3⟩
  case hc1 =>
    have hb := h.1 "c1" 1 0 wv_vnorm_c1 wb_bnorm_c1
    rw [hb]
    norm_num
  case hc2 =>
    have hvo := h.2.1 "c2" 0 wv_vnorm_c2 wb_bnorm_c2
    rw [hvo]
    norm_num
  case hc3 =>
    have hbo := h.2.2.1 "c3" 1 wv_vnorm_c3 wb_bnorm_c3
    rw [hbo]
    norm_num

/-- Claim C4 (amended): at the alpha boundaries the *fusion scores*
degenerate as advertised — with `alpha = 1` every chunk carried by the
vector list keeps exactly its normalized vector score and a BM25-only chunk
gets score 0; symmetrically for `alpha = 0`.  The zero-scored cross-list
chunks are, however, *not removed* from the candidate set, so the top-k
output can still contain them when the favored list has fewer than `k`
entries (see `claim4_counterexample`). -/
theorem claim4_alpha_boundary (vr : List VecResult) (br : List BM25Result)
    (hv : (vr.map (fun r => r.id)).Nodup)
    (hb : (br.map (fun r => r.id)).Nodup) :
    (∀ cid vn, vnormOf vr cid = some vn →
        fusedFinal (fuseResults vr br 1) cid = some vn)
  ∧ (∀ cid, vnormOf vr cid = none → (bnormOf br cid).isSome = true →
        fusedFinal (fuseResults vr br 1) cid = some 0)
  ∧ (∀ cid bn, bnormOf br cid = some bn →
        fusedFinal (fuseResults vr br 0) cid = some bn)
  ∧ (∀ cid, bnormOf br cid = none → (vnormOf vr cid).isSome = true →
        fusedFinal (fuseResults vr br 0) cid = some 0) := by
  refine ⟨?v1, ?b0at1, ?b1, ?v0at0⟩
  case v1 =>
    intro cid vn hvn
    rw [fusedFinal_eq vr br 1 cid hv hb, hvn]
    rcases hbn : bnormOf br cid with _ | bn
    · norm_num
    · norm_num
  case b0at1 =>
    intro cid hvn hbs
    rw [fusedFinal_eq vr br 1 cid hv hb, hvn]
    rcases hbn : bnormOf br cid with _ | bn
    · rw [hbn] at hbs; simp at hbs
    · norm_num
  case b1 =>
    intro cid bn hbn
    rw [fusedFinal_eq vr br 0 cid hv hb, hbn]
    rcases hvn : vnormOf vr cid with _ | vn
    · norm_num
    · norm_num
  case v0at0 =>
    intro cid hbn hvs
    rw [fusedFinal_eq vr br 0 cid hv hb, hbn]
    rcases hvn : vnormOf vr cid with _ | vn
    · rw [hvn] at hvs; simp at hvs
    · norm_num

/-- Witness for C4 (amended): at `alpha = 1` the both-lists chunk `c1` keeps
exactly its normalized vector score `1`, and at `alpha = 0` it keeps its
normalized BM25 score `0`. -/
theorem claim4_witness :
    fusedFinal (fuseResults [wv1, wv2] [wb1, wb3] 1) "c1" = some 1
  ∧ fusedFinal (fuseResults [wv1, wv2] [wb1, wb3] 0) "c1" = some 0 := by
  have h := claim4_alpha_boundary [wv1, wv2] [wb1, wb3]
    (by simp [wv1, wv2]) (by simp [wb1, wb3])
  exact ⟨h.1 "c1" 1 wv_vnorm_c1, h.2.2.1 "c1" 0 wb_bnorm_c1⟩

/-- Counterexample to C4 as stated:  with `alpha = 0` (pure lexical weight)
and `top_k = 2`, `hybrid_search`'s output is `[bb, va]` — it contains the
chunk `va`, which the BM25 search never returned (the BM25 candidate ids are
just `[bb]`).  Zero-scored vector-only chunks are kept by `_fuse_results`
and pad the top-k, so the `alpha = 0` ranking is *not* the pure BM25
ranking. -/
theorem claim4_counterexample :
    (hybridCore [cxv] [cxb] 2 0).map (fun f => f.id) = ["bb", "va"]
  ∧ ¬ ("va" ∈ [cxb].map (fun r => r.id)) := by
  constructor
  · norm_num [hybridCore, fuseResults, fuseFoldV, fuseFoldB, vEntry, bEntry,
      vnormAssoc, bnormAssoc, normalize_scores, npMin, npMax, cxv, cxb,
      deduplicateResults, pySorted, insertOrd, pySlice]
  · simp [cxb]

/-! ## Document filter isolation (`_bm25_search` and `hybrid_search`) -/

lemma mem_insertOrd {le : α → α → Bool} {x a : α} :
    ∀ {l : List α}, a ∈ insertOrd le x l ↔ a = x ∨ a ∈ l := by
  intro l
  induction l with
  | nil => simp [insertOrd]
  | cons y ys ih =>
    simp only [insertOrd]
    by_cases hle : le x y
    · simp [hle]
    · simp only [hle, Bool.false_eq_true, if_false, List.mem_cons, ih]
      tauto

lemma mem_pySorted {le : α → α → Bool} {a : α} :
    ∀ {l : List α}, a ∈ pySorted le l ↔ a ∈ l := by
  intro l
  induction l with
  | nil => simp [pySorted]
  | cons y ys ih =>
    simp only [pySorted, mem_insertOrd, List.mem_cons, ih]

lemma pySlice_subset (l : List α) (k : Int) : pySlice l k ⊆ l := by
  unfold pySlice
  split
  · exact List.take_subset _ _
  · exact List.take_subset _ _

lemma getD_map_range (g : Nat → ℚ) (n i : Nat) :
    ((List.range n).map g).getD i 0 = if i < n then g i else 0 := by
  by_cases h : i < n
  · rw [if_pos h, List.getD_eq_getD_get?, List.get?_eq_getElem?,
      List.getElem?_map, List.getElem?_range h]
    rfl
  · rw [if_neg h, List.getD_eq_default]
    rw [List.length_map, List.length_range]
    omega

/-- Every row `_bm25_search` returns under a document filter comes from a
corpus position whose chunk matches the filter, and its score is the raw
(full-corpus) BM25 score of that position — the filter zeroes out-of-filter
scores before ranking but never alters in-filter term statistics. -/
lemma bm25Search_mem (rawScores : List ℚ) (chunks : List Chunk) (b : String)
    (topk : Int) :
    ∀ r ∈ bm25Search rawScores chunks (some b) topk,
      ∃ i, i < rawScores.length ∧
        (chunks.getD i default).metadata.bill_number = some b ∧
        r.id = (chunks.getD i default).id ∧
        r.text = (chunks.getD i default).text ∧
        r.metadata = (chunks.getD i default).metadata ∧
        r.bm25_score = rawScores.getD i 0 ∧
        0 < rawScores.getD i 0 := by
  intro r hr
  simp only [bm25Search] at hr
  rcases List.mem_filterMap.mp hr with ⟨i, _, hfi⟩
  set scores := (List.range rawScores.length).map
    (fun i => if (chunks.getD i default).metadata.bill_number = some b
      then rawScores.getD i 0 else 0) with hscores
  by_cases hpos : 0 < scores.getD i 0
  · rw [if_pos hpos] at hfi
    have hgd : scores.getD i 0 =
        if i < rawScores.length then
          (if (chunks.getD i default).metadata.bill_number = some b
            then rawScores.getD i 0 else 0)
        else 0 := by
      rw [hscores, getD_map_range]
    by_cases hilen : i < rawScores.length
    · rw [if_pos hilen] at hgd
      by_cases hmatch : (chunks.getD i default).metadata.bill_number = some b
      · rw [if_pos hmatch] at hgd
        refine ⟨i, hilen, hmatch, ?fields⟩
        injection hfi with hfi2
        subst hfi2
        rw [hgd] at hpos
        exact ⟨rfl, rfl, rfl, hgd, hpos⟩
      · rw [if_neg hmatch] at hgd
        rw [hgd] at hpos
        exact absurd hpos (lt_irrefl 0)
    · rw [if_neg hilen] at hgd
      rw [hgd] at hpos
      exact absurd hpos (lt_irrefl 0)
  · rw [if_neg hpos] at hfi
    cases hfi

lemma fuseFoldV_metadata (α : ℚ) :
    ∀ (vl : List (VecResult × ℚ)) (acc : List FusedResult),
      ∀ f ∈ fuseFoldV α vl acc,
        (∃ g ∈ acc, f.metadata = g.metadata) ∨
        (∃ p ∈ vl, f.metadata = p.1.metadata) := by
  intro vl
  induction vl with
  | nil =>
    intro acc f hf
    exact Or.inl ⟨f, hf, rfl⟩
  | cons p rest ih =>
    intro acc f hf
    simp only [fuseFoldV] at hf
    rcases ih _ f hf with ⟨g, hg, hfg⟩ | ⟨q, hq, hfq⟩
    · by_cases hc : acc.any (fun f => decide (f.id = p.1.id)) = true
      · rw [if_pos hc] at hg
        rcases List.mem_map.mp hg with ⟨h, hh, rfl⟩
        by_cases hid : h.id = p.1.id
        · rw [if_pos hid] at hfg
          exact Or.inr ⟨p, List.mem_cons_self p rest, hfg⟩
        · rw [if_neg hid] at hfg
          exact Or.inl ⟨h, hh, hfg⟩
      · rw [if_neg hc] at hg
        rcases List.mem_append.mp hg with hg | hg
        · exact Or.inl ⟨g, hg, hfg⟩
        · have : g = vEntry α p := by simpa using hg
          subst this
          exact Or.inr ⟨p, List.mem_cons_self p rest, hfg⟩
    · exact Or.inr ⟨q, List.mem_cons_of_mem p hq, hfq⟩

lemma fuseFoldB_metadata (α : ℚ) :
    ∀ (bl : List (BM25Result × ℚ)) (acc : List FusedResult),
      ∀ f ∈ fuseFoldB α bl acc,
        (∃ g ∈ acc, f.metadata = g.metadata) ∨
        (∃ p ∈ bl, f.metadata = p.1.metadata) := by
  intro bl
  induction bl with
  | nil =>
    intro acc f hf
    exact Or.inl ⟨f, hf, rfl⟩
  | cons p rest ih =>
    intro acc f hf
    simp only [fuseFoldB] at hf
    rcases ih _ f hf with ⟨g, hg, hfg⟩ | ⟨q, hq, hfq⟩
    · by_cases hc : acc.any (fun f => decide (f.id = p.1.id)) = true
      · rw [if_pos hc] at hg
        rcases List.mem_map.mp hg with ⟨h, hh, rfl⟩
        by_cases hid : h.id = p.1.id
        · rw [if_pos hid] at hfg
          exact Or.inl ⟨h, hh, hfg⟩
        · rw [if_neg hid] at hfg
          exact Or.inl ⟨h, hh, hfg⟩
      · rw [if_neg hc] at hg
        rcases List.mem_append.mp hg with hg | hg
        · exact Or.inl ⟨g, hg, hfg⟩
        · have : g = bEntry α p := by simpa using hg
          subst this
          exact Or.inr ⟨p, List.mem_cons_self p rest, hfg⟩
    · exact Or.inr ⟨q, List.mem_cons_of_mem p hq, hfq⟩

/-- Every fused row carries the metadata of some vector or some BM25
candidate (update-in-place never touches metadata). -/
lemma fuseResults_metadata (vr : List VecResult) (br : List BM25Result)
    (α : ℚ) :
    ∀ f ∈ fuseResults vr br α,
      (∃ r ∈ vr, f.metadata = r.metadata) ∨
      (∃ r ∈ br, f.metadata = r.metadata) := by
  intro f hf
  unfold fuseResults at hf
  rcases fuseFoldB_metadata α _ _ f hf with ⟨g, hg, hfg⟩ | ⟨q, hq, hfq⟩
  · rcases fuseFoldV_metadata α _ _ g hg with ⟨h, hh, hgh⟩ | ⟨p, hp, hgp⟩
    · cases hh
    · exact Or.inl ⟨p.1, (List.of_mem_zip hp).1, by rw [hfg, hgp]⟩
  · exact Or.inr ⟨q.1, (List.of_mem_zip hq).1, hfq⟩

/-- Claim C7: under a document filter (1) every chunk `_bm25_search` returns
matches the filter — out-of-filter chunks are zeroed before ranking and then
excluded by the `score > 0` rule; (2) the scores of the returned chunks are
the raw full-corpus BM25 scores — filtering never changes the term
statistics computed over the whole corpus; (3) provided the vector store
honours the filter on its side (its contract), `hybrid_search` never returns
a chunk whose `bill_number` differs from the filter. -/
theorem claim7_filter_isolation (rawScores : List ℚ) (chunks : List Chunk)
    (b : String) (topk k : Int) (α : ℚ) (vr : List VecResult)
    (hvr : ∀ r ∈ vr, r.metadata.bill_number = some b) :
    (∀ r ∈ bm25Search rawScores chunks (some b) topk,
        r.metadata.bill_number = some b)
  ∧ (∀ r ∈ bm25Search rawScores chunks (some b) topk,
        ∃ i, i < rawScores.length ∧ r.bm25_score = rawScores.getD i 0 ∧
          0 < rawScores.getD i 0)
  ∧ (∀ f ∈ hybridCore vr (bm25Search rawScores chunks (some b) topk) k α,
        f.metadata.bill_number = some b) := by
  refine ⟨?lex, ?idf, ?hyb⟩
  case lex =>
    intro r hr
    rcases bm25Search_mem rawScores chunks b topk r hr with
      ⟨i, _, hmatch, _, _, hmeta, _, _⟩
    rw [hmeta, hmatch]
  case idf =>
    intro r hr
    rcases bm25Search_mem rawScores chunks b topk r hr with
      ⟨i, hilen, _, _, _, _, hscore, hpos⟩
    exact ⟨i, hilen, hscore, hpos⟩
  case hyb =>
    intro f hf
    unfold hybridCore deduplicateResults at hf
    have hf2 : f ∈ pySorted
        (fun a b => decide (b.final_score ≤ a.final_score))
        (fuseResults vr (bm25Search rawScores chunks (some b) topk) α) :=
      pySlice_subset _ k hf
    have hf3 : f ∈ fuseResults vr (bm25Search rawScores chunks (some b) topk)
        α := mem_pySorted.mp hf2
    rcases fuseResults_metadata vr _ α f hf3 with ⟨r, hr, hfr⟩ | ⟨r, hr, hfr⟩
    · rw [hfr]
      exact hvr r hr
    · rw [hfr]
      rcases bm25Search_mem rawScores chunks b topk r hr with
        ⟨i, _, hmatch, _, _, hmeta, _, _⟩
      rw [hmeta, hmatch]

/-- Witness for C7: over the corpus `[cu1, cu3]` (bills `H.R. 1` and
`H.R. 2`) with raw scores `[2, 3]` — the out-of-filter chunk `u3` has the
larger raw score — the filtered BM25 search returns exactly the `H.R. 1`
row, with its full-corpus score 2, and the isolation theorem applies to
it. -/
theorem claim7_witness :
    bm25Search [2, 3] [cu1, cu3] (some "H.R. 1") 4 =
      [⟨"u1", "Grants for education programs",
        { bill_number := some "H.R. 1", start_char := some 0 }, 2⟩]
  ∧ (⟨"u1", "Grants for education programs",
      { bill_number := some "H.R. 1", start_char := some 0 },
      2⟩ : BM25Result).metadata.bill_number = some "H.R. 1" := by
  have heval : bm25Search [2, 3] [cu1, cu3] (some "H.R. 1") 4 =
      [⟨"u1", "Grants for education programs",
        { bill_number := some "H.R. 1", start_char := some 0 }, 2⟩] := by
    decide
  refine ⟨heval, ?iso⟩
  exact (claim7_filter_isolation [2, 3] [cu1, cu3] "H.R. 1" 4 2 (1/2) [wvh]
    (by intro r hr; simp only [List.mem_singleton] at hr; subst hr; rfl)).1
    _ (by rw [heval]; exact List.mem_singleton.mpr rfl)

/-! ## Parameter validation (C8), cache key (C9), provisions `TypeError` (C3) -/

/-- Claim C8 (amended): `hybrid_search` performs no validation of its query
parameters — any `alpha` (also outside `[0, 1]`) and any `top_k` (also zero
or negative) are silently accepted and a result list is computed; the only
error on this path is the untyped empty-corpus `ValueError` raised while
building the BM25 index.  The module's `RAGEngineError` class exists but is
never raised here, so there is no typed "invalid query parameters" error. -/
theorem claim8_no_param_validation (rawScores : List ℚ) (corpus : List Chunk)
    (vr : List VecResult) (top_k : Int) (α : ℚ) (b : Option String) :
    (corpus ≠ [] →
      hybridPipeline rawScores corpus vr top_k α b =
        .ok (hybridCore vr (bm25Search rawScores corpus b (top_k * 2))
          top_k α))
  ∧ (corpus = [] →
      hybridPipeline rawScores corpus vr top_k α b =
        .error (.valueError "Cannot create BM25 index from empty chunks")) := by
  constructor
  · intro hne
    cases corpus with
    | nil => exact absurd rfl hne
    | cons c cs => rfl
  · intro he
    subst he
    rfl

/-- Witness for C8 (amended): a non-empty corpus queried with the invalid
parameters `top_k = -3`, `alpha = 2` still yields an `ok` result. -/
theorem claim8_witness :
    hybridPipeline [2] [cu1] [] (-3) 2 none =
      .ok (hybridCore [] (bm25Search [2] [cu1] none (-3 * 2)) (-3) 2) :=
  (claim8_no_param_validation [2] [cu1] [] (-3) 2 none).1 (by simp)

/-- Counterexample to C8 as stated: with `alpha = 2 ∉ [0, 1]` and with
`top_k = -3 ≤ 0` the pipeline silently computes a result (`isOk`), instead
of returning any typed parameter error. -/
theorem claim8_counterexample :
    (hybridPipeline [2] [cu1] [] 5 2 none).isOk = true
  ∧ (hybridPipeline [2] [cu1] [] (-3) 2 none).isOk = true := by
  exact ⟨rfl, rfl⟩

/-- Claim C9 (amended): the cache key is the colon-joined *string*
`f"{query}:{top_k}:{alpha}:{bill_number}"`, not a tuple.  Identical
parameter tuples always produce the same key, but the map from tuples to
keys is not injective: a query string containing colons can realign the
fields of another tuple's key, and a missing filter (`None`) collides with
the literal filter string `"None"` (see `claim9_counterexample`). -/
theorem claim9_cache_key (q₁ q₂ : String) (k₁ k₂ : Int) (a₁ a₂ : ℚ)
    (b₁ b₂ : Option String) :
    (q₁ = q₂ → k₁ = k₂ → a₁ = a₂ → b₁ = b₂ →
      cacheKey q₁ k₁ a₁ b₁ = cacheKey q₂ k₂ a₂ b₂)
  ∧ cacheKey "a:1:1.0:x" 1 1 (some "y") =
      cacheKey "a" 1 1 (some "x:1:1.0:y")
  ∧ ("a:1:1.0:x", (1 : Int), (1 : ℚ), some "y") ≠
      ("a", (1 : Int), (1 : ℚ), some "x:1:1.0:y") := by
  refine ⟨?same, ?collide, ?distinct⟩
  case same =>
    intro hq hk ha hb
    rw [hq, hk, ha, hb]
  case collide => decide
  case distinct => decide

/-- Witness for C9 (amended): identical tuples produce identical keys. -/
theorem claim9_witness :
    cacheKey "tax credits" 3 1 (some "H.R. 1") =
      cacheKey "tax credits" 3 1 (some "H.R. 1") :=
  (claim9_cache_key "tax credits" "tax credits" 3 3 1 1
    (some "H.R. 1") (some "H.R. 1")).1 rfl rfl rfl rfl

/-- Counterexample to C9 as stated: the distinct parameter tuples
`(query, 5, 1.0, None)` and `(query, 5, 1.0, "None")` produce the *same*
cache key `"healthcare:5:1.0:None"`, so two calls with different filters
share a cache entry — the claim's "if and only if" fails. -/
theorem claim9_counterexample :
    cacheKey "healthcare" 5 1 none = cacheKey "healthcare" 5 1 (some "None")
  ∧ (none : Option String) ≠ some "None" := by
  exact ⟨by decide, by decide⟩

/-- Claim C3 is right about the intent and the code is wrong:
`find_specific_provisions` calls `get_full_bill_context`, which returns a
*string*, then iterates it as if it were the chunk list; on the claim's own
scenario corpus (one `H.R. 1` chunk containing "education", one containing
"Secretary") the call raises `TypeError` on the first character instead of
returning the two chunks with `keyword_matches = 1`. -/
theorem claim3_provisions_typeerror :
    findSpecificProvisions encC decC [cu1, cu2] "H.R. 1"
      ["education", "Secretary"] false =
      .error (.typeError "string indices must be integers") := by
  rfl

end RagSpec
